import Mathlib

/-!
Shallow embedding of the B-tree implementation in `src/btree/src/lib.rs`,
specialised to integer keys.  Rust `Vec` operations that can panic
(out-of-bounds indexing, `unwrap` on `None`) and `assert!` statements are
modelled with `Option`: a `none` result means the Rust code aborts.
-/

def usizeMax : Nat := 2 ^ 64 - 1

/-- `Vec::insert(i, a)`: aborts when `i > length`. -/
def listInsert (i : Nat) (a : α) (l : List α) : Option (List α) :=
  if i ≤ l.length then some (l.take i ++ a :: l.drop i) else none

/-- `Vec::remove(i)`: removes and returns the element at `i`; aborts when `i ≥ length`. -/
def listRemove (i : Nat) (l : List α) : Option (α × List α) :=
  match l[i]? with
  | some a => some (a, l.take i ++ l.drop (i + 1))
  | none => none

/-- Indexed assignment `l[i] = a`: aborts when `i ≥ length`. -/
def listAssign (i : Nat) (a : α) (l : List α) : Option (List α) :=
  if i < l.length then some (l.set i a) else none

/-- `Vec::pop().unwrap()`: last element and the remaining list; aborts on `[]`. -/
def listPop (l : List α) : Option (α × List α) :=
  match l.getLast? with
  | some a => some (a, l.dropLast)
  | none => none

/-- The `Node<T>` struct: a list of keys and a list of child nodes. -/
inductive Node : Type where
  | mk (keys : List Int) (children : List Node) : Node
deriving Inhabited

def Node.keys : Node → List Int
  | .mk ks _ => ks

def Node.children : Node → List Node
  | .mk _ cs => cs

/-- `Node::is_leaf`. -/
def Node.is_leaf (n : Node) : Bool := n.children.isEmpty

/-- The `Btree<T>` struct. -/
structure Btree where
  root : Node
  size : Nat
  min_keys : Nat
  max_keys : Nat

/-- The loop of `Node::search`, walking the key list from the front:
`(true, i)` when `val` matches the `i`-th key, `(false, i)` when the `i`-th
child should be explored. -/
def searchKeys (val : Int) : List Int → Bool × Nat
  | [] => (false, 0)
  | k :: ks =>
    if val = k then (true, 0)
    else if k < val then
      let r := searchKeys val ks
      (r.1, r.2 + 1)
    else (false, 0)

/-- `Node::search`. -/
def Node.search (n : Node) (val : Int) : Bool × Nat := searchKeys val n.keys

/-- In-order sequence of all keys stored in a subtree. -/
def Node.flat : Node → List Int
  | .mk ks [] => ks
  | .mk [] (c :: cs) => c.flat ++ (Node.mk [] cs).flat
  | .mk (k :: ks) (c :: cs) => c.flat ++ k :: (Node.mk ks cs).flat
termination_by n => sizeOf n
decreasing_by all_goals (simp; try omega)

/-- Every proper descendant `d` of the node satisfies the key-count bounds
`minK ≤ d.keys.length ≤ maxK` and, when internal, has `keys.length + 1` children. -/
def chOk (minK maxK : Nat) : Node → Bool
  | .mk _ [] => true
  | .mk ks (c :: cs) =>
    (decide (minK ≤ c.keys.length) && decide (c.keys.length ≤ maxK)
      && (c.children.isEmpty || c.children.length == c.keys.length + 1)
      && chOk minK maxK c)
    && chOk minK maxK (.mk ks cs)
termination_by n => sizeOf n
decreasing_by all_goals (simp; try omega)

/-- Height of a subtree (leaves have height 0). -/
def Node.height : Node → Nat
  | .mk _ [] => 0
  | .mk ks (c :: cs) => max (c.height + 1) (Node.height (.mk ks cs))
termination_by n => sizeOf n
decreasing_by all_goals (simp; try omega)

/-- All leaves of the subtree are at the same depth. -/
def Node.balanced : Node → Bool
  | .mk _ [] => true
  | .mk ks (c :: cs) =>
    c.balanced && (Node.mk ks cs).balanced && cs.all (fun d => d.height == c.height)
termination_by n => sizeOf n
decreasing_by all_goals (simp; try omega)

/-- Number of nodes in a subtree; used as fuel for the walking loops
(every root-to-leaf walk visits at most `weight` nodes). -/
def Node.weight : Node → Nat
  | .mk _ [] => 1
  | .mk ks (c :: cs) => c.weight + Node.weight (.mk ks cs)
termination_by n => sizeOf n
decreasing_by all_goals (simp; try omega)

/-- The structural invariants stated by the spec, checked at the root of a tree:
root key count within `[0, maxK]`, internal nodes have `keys + 1` children, and
every non-root node has between `minK` and `maxK` keys. -/
def Node.wfRoot (minK maxK : Nat) (n : Node) : Bool :=
  decide (n.keys.length ≤ maxK)
    && (n.children.isEmpty || n.children.length == n.keys.length + 1)
    && chOk minK maxK n

/-- Spec well-formedness of a whole tree: structural invariants plus uniform leaf depth. -/
def Btree.well_formed (t : Btree) : Bool :=
  t.root.wfRoot t.min_keys t.max_keys && t.root.balanced

/-- `Node::split_child`: the child at `index` moves the right half of its keys
and children into a fresh right sibling; the middle key moves up into this node.
Returns the modified parent node. -/
def Node.split_child (minK maxK index : Nat) (self : Node) : Option Node :=
  if self.is_leaf ∨ ¬ (index ≤ self.keys.length ∧ self.keys.length < maxK) then none
  else match self.children[index]? with
    | none => none
    | some left =>
      if ¬ (left.keys.length = maxK) then none
      else if ¬ (3 ≤ maxK ∧ maxK % 2 = 1) then none
      else
        let rightChildren := if left.is_leaf then [] else left.children.drop (minK + 1)
        let rightKeys := left.keys.drop (minK + 1)
        match listPop (left.keys.take (minK + 1)) with
        | none => none
        | some (middleKey, leftKeys) =>
          let newLeft : Node :=
            .mk leftKeys (if left.is_leaf then left.children else left.children.take (minK + 1))
          match listInsert index middleKey self.keys with
          | none => none
          | some ks' =>
            match listInsert (index + 1) (.mk rightKeys rightChildren)
                (self.children.set index newLeft) with
            | none => none
            | some cs' => some (.mk ks' cs')

/-- The walking loop of `Btree::insert`, with fuel; returns the updated subtree
and whether a key was inserted. -/
def insertGo (minK maxK size : Nat) (val : Int) : Nat → Node → Bool → Option (Node × Bool)
  | 0, _, _ => none
  | fuel + 1, node, isRoot =>
    if ¬ (node.keys.length < maxK) then none
    else if ¬ (isRoot = true ∨ minK ≤ node.keys.length) then none
    else
      match node.search val with
      | (true, _) => some (node, false)
      | (false, index) =>
        if node.is_leaf then
          if ¬ (size < usizeMax) then none
          else match listInsert index val node.keys with
            | none => none
            | some ks' => some (.mk ks' node.children, true)
        else
          match node.children[index]? with
          | none => none
          | some child =>
            if child.keys.length = maxK then
              match node.split_child minK maxK index with
              | none => none
              | some node' =>
                match node'.keys[index]? with
                | none => none
                | some k =>
                  if val = k then some (node', false)
                  else
                    let index' := if k < val then index + 1 else index
                    match node'.children[index']? with
                    | none => none
                    | some c =>
                      match insertGo minK maxK size val fuel c false with
                      | none => none
                      | some (c', b) =>
                        some (.mk node'.keys (node'.children.set index' c'), b)
            else
              match insertGo minK maxK size val fuel child false with
              | none => none
              | some (c', b) => some (.mk node.keys (node.children.set index c'), b)

/-- `Btree::insert`. -/
def Btree.insert (t : Btree) (val : Int) : Option (Btree × Bool) :=
  let pre : Option Node :=
    if t.root.keys.length = t.max_keys then
      if ¬ (3 ≤ t.max_keys ∧ t.max_keys % 2 = 1) then none
      else Node.split_child t.min_keys t.max_keys 0 (.mk [] [t.root])
    else some t.root
  match pre with
  | none => none
  | some root0 =>
    match insertGo t.min_keys t.max_keys t.size val root0.weight root0 true with
    | none => none
    | some (root', inserted) =>
      some ({ t with
                root := root'
                size := if inserted then t.size + 1 else t.size }, inserted)

/-- The walking loop of `Btree::contains`, with fuel. -/
def containsGo (val : Int) : Nat → Node → Option Bool
  | 0, _ => none
  | fuel + 1, node =>
    match node.search val with
    | (true, _) => some true
    | (false, index) =>
      if node.is_leaf then some false
      else match node.children[index]? with
        | none => none
        | some c => containsGo val fuel c

/-- `Btree::contains`. -/
def Btree.contains (t : Btree) (val : Int) : Option Bool :=
  containsGo val t.root.weight t.root

/-- `Node::merge_children`: merges the key at `index` and the child at
`index + 1` into the child at `index`. -/
def Node.merge_children (minK index : Nat) (self : Node) : Option Node :=
  if self.is_leaf ∨ ¬ (index < self.keys.length) then none
  else match listRemove index self.keys, listRemove (index + 1) self.children with
    | some (middleKey, ks'), some (right, cs') =>
      match cs'[index]? with
      | none => none
      | some left =>
        if ¬ (left.keys.length = minK ∧ right.keys.length = minK) then none
        else
          let newLeft : Node := .mk (left.keys ++ middleKey :: right.keys)
            (if left.is_leaf then left.children else left.children ++ right.children)
          some (.mk ks' (cs'.set index newLeft))
    | _, _ => none

/-- `Node::ensure_child_remove`, embedded faithfully to the source — including
the read of `self.children[index + 1]` where the left sibling is examined.
Returns the modified node together with the index of the child to descend into. -/
def Node.ensure_child_remove (minK : Nat) (index : Nat) (self : Node) : Option (Node × Nat) :=
  if self.is_leaf ∨ ¬ (index ≤ self.keys.length) then none
  else match self.children[index]? with
  | none => none
  | some child =>
    if minK < child.keys.length then some (self, index)
    else if ¬ (child.keys.length = minK) then none
    else
      let isInternal : Bool := ¬ child.is_leaf
      let leftSizeO : Option Nat :=
        if 1 ≤ index then
          match self.children[index + 1]? with
          | none => none
          | some l => if (¬ l.is_leaf : Bool) = isInternal then some l.keys.length else none
        else some 0
      let rightSizeO : Option Nat :=
        if index < self.keys.length then
          match self.children[index + 1]? with
          | none => none
          | some r => if (¬ r.is_leaf : Bool) = isInternal then some r.keys.length else none
        else some 0
      match leftSizeO, rightSizeO with
      | some leftSize, some rightSize =>
        if ¬ (0 < leftSize ∨ 0 < rightSize) then none
        else if minK < leftSize then
          let step1 : Option Node :=
            if isInternal then
              match self.children[index - 1]? with
              | none => none
              | some l =>
                match listPop l.children with
                | none => none
                | some (temp, lcs) =>
                  let cs1 := self.children.set (index - 1) (.mk l.keys lcs)
                  match cs1[index]? with
                  | none => none
                  | some c => some (.mk self.keys (cs1.set index (.mk c.keys (temp :: c.children))))
            else some self
          match step1 with
          | none => none
          | some self1 =>
            match self1.children[index - 1]? with
            | none => none
            | some l =>
              match listPop l.keys with
              | none => none
              | some (temp, lks) =>
                match self1.keys[index - 1]? with
                | none => none
                | some sep =>
                  match listAssign (index - 1) temp self1.keys with
                  | none => none
                  | some ks' =>
                    let cs2 := self1.children.set (index - 1) (.mk lks l.children)
                    match cs2[index]? with
                    | none => none
                    | some c =>
                      some (.mk ks' (cs2.set index (.mk (sep :: c.keys) c.children)), index)
        else if minK < rightSize then
          let step1 : Option Node :=
            if isInternal then
              match self.children[index + 1]? with
              | none => none
              | some r =>
                match listRemove 0 r.children with
                | none => none
                | some (temp, rcs) =>
                  let cs1 := self.children.set (index + 1) (.mk r.keys rcs)
                  match cs1[index]? with
                  | none => none
                  | some c =>
                    some (.mk self.keys (cs1.set index (.mk c.keys (c.children ++ [temp]))))
            else some self
          match step1 with
          | none => none
          | some self1 =>
            match self1.children[index + 1]? with
            | none => none
            | some r =>
              match listRemove 0 r.keys with
              | none => none
              | some (temp, rks) =>
                match self1.keys[index]? with
                | none => none
                | some sep =>
                  match listAssign index temp self1.keys with
                  | none => none
                  | some ks' =>
                    let cs2 := self1.children.set (index + 1) (.mk rks r.children)
                    match cs2[index]? with
                    | none => none
                    | some c =>
                      some (.mk ks' (cs2.set index (.mk (c.keys ++ [sep]) c.children)), index)
        else if leftSize = minK then
          match self.merge_children minK (index - 1) with
          | none => none
          | some s => some (s, index - 1)
        else if rightSize = minK then
          match self.merge_children minK index with
          | none => none
          | some s => some (s, index)
        else none
      | _, _ => none

/-- `Node::remove_min`, with fuel. -/
def removeMinGo (minK : Nat) : Nat → Node → Option (Int × Node)
  | 0, _ => none
  | fuel + 1, node =>
    if ¬ (minK < node.keys.length) then none
    else if node.is_leaf then
      match listRemove 0 node.keys with
      | none => none
      | some (k, ks') => some (k, .mk ks' node.children)
    else
      match node.ensure_child_remove minK 0 with
      | none => none
      | some (node', idx) =>
        match node'.children[idx]? with
        | none => none
        | some c =>
          match removeMinGo minK fuel c with
          | none => none
          | some (k, c') => some (k, .mk node'.keys (node'.children.set idx c'))

/-- `Node::remove_max`, with fuel. -/
def removeMaxGo (minK : Nat) : Nat → Node → Option (Int × Node)
  | 0, _ => none
  | fuel + 1, node =>
    if ¬ (minK < node.keys.length) then none
    else if node.is_leaf then
      match listPop node.keys with
      | none => none
      | some (k, ks') => some (k, .mk ks' node.children)
    else
      match node.ensure_child_remove minK (node.children.length - 1) with
      | none => none
      | some (node', idx) =>
        match node'.children[idx]? with
        | none => none
        | some c =>
          match removeMaxGo minK fuel c with
          | none => none
          | some (k, c') => some (k, .mk node'.keys (node'.children.set idx c'))

/-- The walking loop of `Btree::remove_sub`, with fuel. -/
def removeSubGo (minK maxK : Nat) (val : Int) :
    Nat → Node → Bool → Nat → Bool → Option (Node × Bool)
  | 0, _, _, _, _ => none
  | fuel + 1, node, found, index, isRoot =>
    if ¬ (node.keys.length ≤ maxK) then none
    else if ¬ (isRoot = true ∨ minK < node.keys.length) then none
    else if node.is_leaf then
      if found then
        match listRemove index node.keys with
        | none => none
        | some (_, ks') => some (.mk ks' node.children, true)
      else some (node, false)
    else if found then
      match node.children[index]? with
      | none => none
      | some child =>
        if minK < child.keys.length then
          match removeMaxGo minK fuel child with
          | none => none
          | some (k, child') =>
            match listAssign index k node.keys with
            | none => none
            | some ks' => some (.mk ks' (node.children.set index child'), true)
        else
          match node.children[index + 1]? with
          | none => none
          | some childR =>
            if minK < childR.keys.length then
              match removeMinGo minK fuel childR with
              | none => none
              | some (k, childR') =>
                match listAssign index k node.keys with
                | none => none
                | some ks' => some (.mk ks' (node.children.set (index + 1) childR'), true)
            else
              match node.merge_children minK index with
              | none => none
              | some node' =>
                match node'.children[index]? with
                | none => none
                | some child' =>
                  match removeSubGo minK maxK val fuel child' true minK false with
                  | none => none
                  | some (c', b) => some (.mk node'.keys (node'.children.set index c'), b)
    else
      match node.ensure_child_remove minK index with
      | none => none
      | some (node', index') =>
        match node'.children[index']? with
        | none => none
        | some child =>
          let r := child.search val
          match removeSubGo minK maxK val fuel child r.1 r.2 false with
          | none => none
          | some (c', b) => some (.mk node'.keys (node'.children.set index' c'), b)

/-- The public method `Btree::remove_sub`: removes from the node structure but
does not touch `size` and never collapses the root. -/
def Btree.remove_sub (t : Btree) (val : Int) : Option (Btree × Bool) :=
  let r := t.root.search val
  match removeSubGo t.min_keys t.max_keys val t.root.weight t.root r.1 r.2 true with
  | none => none
  | some (root', result) => some ({ t with root := root' }, result)

/-- `Btree::remove`. -/
def Btree.remove (t : Btree) (val : Int) : Option (Btree × Bool) :=
  match t.remove_sub val with
  | none => none
  | some (t1, result) =>
    let sizeO : Option Nat :=
      if result then (if 0 < t1.size then some (t1.size - 1) else none) else some t1.size
    match sizeO with
    | none => none
    | some size' =>
      if t1.root.keys.isEmpty ∧ ¬ t1.root.is_leaf then
        if t1.root.children.length = 1 then
          match t1.root.children[0]? with
          | none => none
          | some c => some ({ t1 with root := c, size := size' }, result)
        else none
      else some ({ t1 with size := size' }, result)

/-- `Node::new`: the constructor asserts `max_keys ≥ 3` and odd. -/
def Node.newNode (maxK : Nat) : Option Node :=
  if 3 ≤ maxK ∧ maxK % 2 = 1 then some (.mk [] []) else none

/-- `Btree::new(degree)`: rejects `degree < 2` ("Degree must be at least 2")
and `degree > usize::MAX / 2` ("Degree too large"). -/
def Btree.new (degree : Nat) : Option Btree :=
  if ¬ (2 ≤ degree) then none
  else if ¬ (degree ≤ usizeMax / 2) then none
  else
    match Node.newNode (degree * 2 - 1) with
    | none => none
    | some r =>
      some { root := r, size := 0, min_keys := degree - 1, max_keys := degree * 2 - 1 }

/-- `Btree::len`. -/
def Btree.len (t : Btree) : Nat := t.size

/-- `Btree::is_empty`. -/
def Btree.is_empty (t : Btree) : Bool := t.size == 0

/-- `Btree::clear`. -/
def Btree.clear (t : Btree) : Option Btree := Btree.new (t.min_keys + 1)

/-- In-order key sequence of a whole tree. -/
def Btree.toList (t : Btree) : List Int := t.root.flat

/-- Insert a list of values in order, ignoring the returned booleans. -/
def insertAll (t : Btree) : List Int → Option Btree
  | [] => some t
  | v :: vs =>
    match t.insert v with
    | none => none
    | some (t', _) => insertAll t' vs

/-- Remove a list of values in order, ignoring the returned booleans. -/
def removeAll (t : Btree) : List Int → Option Btree
  | [] => some t
  | v :: vs =>
    match t.remove v with
    | none => none
    | some (t', _) => removeAll t' vs


/-! ### Concrete trees used to settle the claims.

`T0` and `T1` are reachable by public operations on a degree-2 tree, as the
reachability conjuncts of the theorems below establish. -/

/-- A well-formed degree-2 tree: root `[2,4]` over leaves `[1]`, `[3]`, `[5]`;
reachable by inserting 1..7 and removing 7 and 6. -/
def T0 : Btree :=
  { root := .mk [2, 4] [.mk [1] [], .mk [3] [], .mk [5] []]
    size := 5
    min_keys := 1
    max_keys := 3 }

/-- A well-formed degree-2 tree: root `[2,5]` over leaves `[1]`, `[3]`, `[6,7]`;
reachable by inserting 1..7 and removing 4. -/
def T1 : Btree :=
  { root := .mk [2, 5] [.mk [1] [], .mk [3] [], .mk [6, 7] []]
    size := 6
    min_keys := 1
    max_keys := 3 }

/-- The (ill-formed) tree produced by `T1.remove 4`: the first leaf has lost
its only key to the bogus left-sibling rotation. -/
def T1bad : Btree :=
  { root := .mk [1, 5] [.mk [] [], .mk [2, 3] [], .mk [6, 7] []]
    size := 6
    min_keys := 1
    max_keys := 3 }

/-- A parent node (for `min_keys = 1`) whose child 1 has exactly `min_keys`
keys while its left sibling (child 0) has more than `min_keys` keys. -/
def C1parent : Node := .mk [3] [.mk [1, 2] [], .mk [4] []]

/-- Degree-2 tree whose root is the full leaf `[1,2,3]`: the result of
inserting 1, 2, 3 into a fresh degree-2 tree. -/
def C7tree : Btree :=
  { root := .mk [1, 2, 3] []
    size := 3
    min_keys := 1
    max_keys := 3 }

/-- Degree-2 tree reached by inserting 1..5: root `[2]` over leaves `[1]` and
`[3,4,5]`. -/
def T5 : Btree :=
  { root := .mk [2] [.mk [1] [], .mk [3, 4, 5] []]
    size := 5
    min_keys := 1
    max_keys := 3 }

/-! ### Basic lemmas -/

@[simp] theorem Node.keys_mk (ks : List Int) (cs : List Node) : (Node.mk ks cs).keys = ks := rfl

@[simp] theorem Node.children_mk (ks : List Int) (cs : List Node) :
    (Node.mk ks cs).children = cs := rfl

/-! ### Claim theorems (concrete claims) -/

/-- C1: `ensure_child_remove(parent, 1)` on a parent whose target child has
exactly `min_keys = 1` keys and whose left sibling has 2 > `min_keys` keys is
claimed to rotate the left sibling's last key through the parent.  The code
instead reads the left sibling's size from `children[index + 1]`, which is out
of bounds here, so the call aborts rather than performing the rotation. -/
theorem C1_ensure_child_remove_no_left_rotation :
    (C1parent.children[1]?).map Node.keys = some [4]
      ∧ (C1parent.children[0]?).map Node.keys = some [1, 2]
      ∧ C1parent.ensure_child_remove 1 1 = none :=
  ⟨rfl, rfl, rfl⟩

/-- C2: the operations are claimed total on well-formed trees, yet `remove 6`
on the well-formed tree `T0` (reachable by inserting 1..7 into a degree-2 tree
and removing 7 then 6) aborts with an out-of-bounds child access. -/
theorem C2_remove_aborts_on_well_formed_tree :
    T0.well_formed = true
      ∧ ((Btree.new 2).bind fun t => (insertAll t [1, 2, 3, 4, 5, 6, 7]).bind fun t =>
          (t.remove 7).bind fun p => (p.1.remove 6).map Prod.fst) = some T0
      ∧ T0.remove 6 = none := by
  refine ⟨?_, ?_, ?_⟩
  · simp [Btree.well_formed, Node.wfRoot, chOk, Node.balanced, Node.height, T0]
  · simp [Btree.new, Node.newNode, insertAll, Btree.insert, insertGo, Node.split_child,
      Node.search, searchKeys, Node.is_leaf, Node.weight, listInsert, listPop, listRemove,
      listAssign, Btree.remove, Btree.remove_sub, removeSubGo, removeMinGo, removeMaxGo,
      Node.ensure_child_remove, Node.merge_children, usizeMax, T0]
  · simp [Btree.remove, Btree.remove_sub, removeSubGo, Node.search, searchKeys, Node.is_leaf,
      Node.weight, Node.ensure_child_remove, T0]

/-- C3: public operations are claimed to preserve well-formedness, yet
`remove 4` on the well-formed tree `T1` (reachable by inserting 1..7 into a
degree-2 tree and removing 4) completes and returns a tree whose first leaf
has no keys, violating the minimum-key invariant. -/
theorem C3_remove_breaks_invariants :
    T1.well_formed = true
      ∧ ((Btree.new 2).bind fun t => (insertAll t [1, 2, 3, 4, 5, 6, 7]).bind fun t =>
          (t.remove 4).map Prod.fst) = some T1
      ∧ T1.remove 4 = some (T1bad, false)
      ∧ T1bad.well_formed = false := by
  refine ⟨?_, ?_, ?_, ?_⟩
  · simp [Btree.well_formed, Node.wfRoot, chOk, Node.balanced, Node.height, T1]
  · simp [Btree.new, Node.newNode, insertAll, Btree.insert, insertGo, Node.split_child,
      Node.search, searchKeys, Node.is_leaf, Node.weight, listInsert, listPop, listRemove,
      listAssign, Btree.remove, Btree.remove_sub, removeSubGo, removeMinGo, removeMaxGo,
      Node.ensure_child_remove, Node.merge_children, usizeMax, T1]
  · have hw : T1.root.weight = 4 := by simp [T1, Node.weight]
    unfold Btree.remove Btree.remove_sub
    rw [hw]
    rfl
  · simp [Btree.well_formed, Node.wfRoot, chOk, T1bad]

/-- C4: inserting the 7 distinct keys 1..7 into a fresh degree-2 tree and then
removing all of them in the order 7,6,5,4,3,2,1 is claimed to leave the tree
empty; instead the third removal aborts with an out-of-bounds child access, so
the whole round trip aborts. -/
theorem C4_round_trip_aborts :
    ((Btree.new 2).bind fun t => (insertAll t [1, 2, 3, 4, 5, 6, 7]).bind fun t =>
        removeAll t [7, 6, 5, 4, 3, 2, 1]) = none := by
  simp [Btree.new, Node.newNode, insertAll, removeAll, Btree.insert, insertGo, Node.split_child,
    Node.search, searchKeys, Node.is_leaf, Node.weight, listInsert, listPop, listRemove,
    listAssign, Btree.remove, Btree.remove_sub, removeSubGo, removeMinGo, removeMaxGo,
    Node.ensure_child_remove, Node.merge_children, usizeMax]

/-- C5: on a degree-2 tree, after inserting 10, 20, 5, 6, 12, 30, 7, 17 and
removing 6: `contains 6` is `false`, `len` is 7, and all leaves are at the
same depth. -/
theorem C5_scenario_b :
    ((Btree.new 2).bind fun t => (insertAll t [10, 20, 5, 6, 12, 30, 7, 17]).bind fun t =>
        (t.remove 6).map fun p => (p.1.contains 6, p.1.len, p.1.root.balanced))
      = some (some false, 7, true) := by
  simp [Btree.new, Node.newNode, insertAll, Btree.insert, insertGo, Node.split_child,
    Node.search, searchKeys, Node.is_leaf, Node.weight, listInsert, listPop, listRemove,
    listAssign, Btree.remove, Btree.remove_sub, removeSubGo, removeMinGo, removeMaxGo,
    Node.ensure_child_remove, Node.merge_children, Btree.contains, containsGo, Btree.len,
    Node.height, Node.balanced, usizeMax]

/-- C6: `remove` of an absent key is claimed to return `false` and leave the
tree unchanged.  On the well-formed tree `T0` the absent key 6 makes `remove`
abort, and on the well-formed tree `T1` the absent key 4 makes `remove` return
`false` while restructuring the tree (its root keys change from `[2,5]` to
`[1,5]`). -/
theorem C6_remove_absent_not_false_unchanged :
    T0.contains 6 = some false
      ∧ T0.remove 6 = none
      ∧ T1.contains 4 = some false
      ∧ (T1.remove 4).map (fun p => (p.2, p.1.root.keys)) = some (false, [1, 5])
      ∧ T1.root.keys = [2, 5] := by
  refine ⟨?_, ?_, ?_, ?_, rfl⟩
  · simp [Btree.contains, containsGo, Node.search, searchKeys, Node.is_leaf, Node.weight, T0]
  · have hw : T0.root.weight = 4 := by simp [T0, Node.weight]
    unfold Btree.remove Btree.remove_sub
    rw [hw]
    rfl
  · simp [Btree.contains, containsGo, Node.search, searchKeys, Node.is_leaf, Node.weight, T1]
  · have hw : T1.root.weight = 4 := by simp [T1, Node.weight]
    unfold Btree.remove Btree.remove_sub
    rw [hw]
    rfl

/-- C8: on a degree-2 tree (`max_keys = 3`), inserting 1..7 in order finds the
root full (hence splits it) exactly at the 4th insertion, and afterwards
`contains 4` is `true`, `contains 8` is `false`, and `len` is 7.  The root key
counts before each of the seven insertions are 0, 1, 2, 3, 1, 1, 2. -/
theorem C8_root_split_exactly_once :
    ((Btree.new 2).bind fun t =>
        (insertAll t []).map fun t => t.root.keys.length) = some 0
      ∧ ((Btree.new 2).bind fun t =>
        (insertAll t [1]).map fun t => t.root.keys.length) = some 1
      ∧ ((Btree.new 2).bind fun t =>
        (insertAll t [1, 2]).map fun t => t.root.keys.length) = some 2
      ∧ ((Btree.new 2).bind fun t =>
        (insertAll t [1, 2, 3]).map fun t => t.root.keys.length) = some 3
      ∧ ((Btree.new 2).bind fun t =>
        (insertAll t [1, 2, 3, 4]).map fun t => t.root.keys.length) = some 1
      ∧ ((Btree.new 2).bind fun t =>
        (insertAll t [1, 2, 3, 4, 5]).map fun t => t.root.keys.length) = some 1
      ∧ ((Btree.new 2).bind fun t =>
        (insertAll t [1, 2, 3, 4, 5, 6]).map fun t => t.root.keys.length) = some 2
      ∧ ((Btree.new 2).bind fun t => (insertAll t [1, 2, 3, 4, 5, 6, 7]).map fun t =>
        (t.max_keys, t.contains 4, t.contains 8, t.len)) = some (3, some true, some false, 7) := by
  refine ⟨?_, ?_, ?_, ?_, ?_, ?_, ?_, ?_⟩ <;>
    simp [Btree.new, Node.newNode, insertAll, Btree.insert, insertGo, Node.split_child,
      Node.search, searchKeys, Node.is_leaf, Node.weight, listInsert, listPop, listRemove,
      listAssign, Btree.contains, containsGo, Btree.len, usizeMax]

/-- C10: `remove_sub` on a tree containing the key is claimed to remove it,
return `true`, leave `size` untouched and never collapse the root.  On `T5`
(reachable by inserting 1..5) it does exactly that — `len` stays 5 while only
4 keys remain stored.  But on the well-formed tree `T0`, which contains 5,
`remove_sub 5` aborts with an out-of-bounds child access instead. -/
theorem C10_remove_sub_stale_size_and_abort :
    (T5.remove_sub 3).map (fun p => (p.2, p.1.len, p.1.toList)) = some (true, 5, [1, 2, 4, 5])
      ∧ T0.contains 5 = some true
      ∧ T0.remove_sub 5 = none := by
  refine ⟨?_, ?_, ?_⟩
  · simp [Btree.remove_sub, removeSubGo, Node.search, searchKeys, Node.is_leaf, Node.weight,
      Node.ensure_child_remove, listRemove, Btree.len, Btree.toList, Node.flat, T5]
  · simp [Btree.contains, containsGo, Node.search, searchKeys, Node.is_leaf, Node.weight, T0]
  · have hw : T0.root.weight = 4 := by simp [T0, Node.weight]
    unfold Btree.remove_sub
    rw [hw]
    rfl

/-- C9: `new(degree)` rejects every degree below 2 and every degree above
`usize::MAX / 2`; every accepted degree yields an empty tree of size 0 whose
root is a single empty leaf, with `min_keys = degree - 1` and
`max_keys = 2 * degree - 1`. -/
theorem C9_new_validates_degree :
    (∀ d : Nat, d < 2 → Btree.new d = none)
      ∧ (∀ d : Nat, usizeMax / 2 < d → Btree.new d = none)
      ∧ (∀ d : Nat, 2 ≤ d → d ≤ usizeMax / 2 →
          ∃ t, Btree.new d = some t ∧ t.size = 0 ∧ t.root = .mk [] []
            ∧ t.min_keys = d - 1 ∧ t.max_keys = 2 * d - 1) := by
  have hM : usizeMax = 18446744073709551615 := by norm_num [usizeMax]
  refine ⟨?_, ?_, ?_⟩
  · intro d hd
    simp only [Btree.new]
    rw [if_pos (by omega)]
  · intro d hd
    rw [hM] at hd
    simp only [Btree.new]
    rw [if_neg (by omega), if_pos (by rw [hM]; omega)]
  · intro d h2 hmax
    simp only [Btree.new, Node.newNode]
    rw [if_neg (by omega), if_neg (by omega), if_pos (by omega)]
    exact ⟨_, rfl, rfl, rfl, rfl, by simp; omega⟩

/-- C9 witness: degree 1 and an oversize degree are rejected; degree 2 yields
the empty tree with `min_keys = 1`, `max_keys = 3`. -/
theorem C9_new_validates_degree_witness :
    Btree.new 1 = none ∧ Btree.new (usizeMax / 2 + 1) = none
      ∧ ∃ t, Btree.new 2 = some t ∧ t.size = 0 ∧ t.root = .mk [] []
          ∧ t.min_keys = 1 ∧ t.max_keys = 3 := by
  refine ⟨C9_new_validates_degree.1 1 (by decide),
    C9_new_validates_degree.2.1 _ (by simp), ?_⟩
  obtain ⟨t, h1, h2, h3, h4, h5⟩ :=
    C9_new_validates_degree.2.2 2 (by decide) (by decide)
  exact ⟨t, h1, h2, h3, h4, h5⟩

/-! ### Lemmas about `weight` -/

theorem Node.weight_eq (ks : List Int) (cs : List Node) :
    (Node.mk ks cs).weight = 1 + (cs.map Node.weight).sum := by
  induction cs with
  | nil => simp [Node.weight]
  | cons c cs ih => simp [Node.weight, ih]; omega

theorem Node.weight_pos (n : Node) : 1 ≤ n.weight := by
  obtain ⟨ks, cs⟩ := n
  rw [Node.weight_eq]
  omega

theorem Node.weight_lt_of_mem {c : Node} {cs : List Node} (h : c ∈ cs) (ks : List Int) :
    c.weight < (Node.mk ks cs).weight := by
  rw [Node.weight_eq]
  have h1 : c.weight ≤ (cs.map Node.weight).sum :=
    List.single_le_sum (fun x _ => Nat.zero_le x) _ (List.mem_map_of_mem Node.weight h)
  omega

theorem Node.weight_take_le (ks1 ks2 : List Int) (cs : List Node) (n : Nat) :
    (Node.mk ks1 (cs.take n)).weight ≤ (Node.mk ks2 cs).weight := by
  rw [Node.weight_eq, Node.weight_eq, List.map_take]
  have h := List.take_append_drop n (cs.map Node.weight)
  have h2 : ((cs.map Node.weight).take n).sum + ((cs.map Node.weight).drop n).sum
      = (cs.map Node.weight).sum := by
    rw [← List.sum_append, h]
  omega

theorem Node.weight_drop_le (ks1 ks2 : List Int) (cs : List Node) (n : Nat) :
    (Node.mk ks1 (cs.drop n)).weight ≤ (Node.mk ks2 cs).weight := by
  rw [Node.weight_eq, Node.weight_eq, List.map_drop]
  have h := List.take_append_drop n (cs.map Node.weight)
  have h2 : ((cs.map Node.weight).take n).sum + ((cs.map Node.weight).drop n).sum
      = (cs.map Node.weight).sum := by
    rw [← List.sum_append, h]
  omega

theorem mem_of_getElem_some {α : Type} {l : List α} {i : Nat} {a : α}
    (h : l[i]? = some a) : a ∈ l := by
  obtain ⟨hlt, he⟩ := List.getElem?_eq_some.mp h
  exact he ▸ List.getElem_mem hlt

theorem lt_length_of_getElem_some {α : Type} {l : List α} {i : Nat} {a : α}
    (h : l[i]? = some a) : i < l.length :=
  (List.getElem?_eq_some.mp h).1

theorem Node.weight_lt_of_getElem {cs : List Node} {i : Nat} {c : Node}
    (h : cs[i]? = some c) (ks : List Int) : c.weight < (Node.mk ks cs).weight :=
  Node.weight_lt_of_mem (mem_of_getElem_some h) ks

/-! ### Lemmas about `searchKeys` -/

theorem searchKeys_false_spec (val : Int) :
    ∀ (ks : List Int) (i : Nat), searchKeys val ks = (false, i) →
      i ≤ ks.length ∧ (∀ k ∈ ks.take i, k < val)
        ∧ (List.Sorted (· < ·) ks → ∀ k ∈ ks.drop i, val < k) := by
  intro ks
  induction ks with
  | nil =>
    intro i h
    simp only [searchKeys, Prod.mk.injEq] at h
    obtain ⟨-, h⟩ := h
    subst h
    simp
  | cons k ks ih =>
    intro i h
    simp only [searchKeys] at h
    by_cases h1 : val = k
    · simp [h1] at h
    · rw [if_neg h1] at h
      by_cases h2 : k < val
      · rw [if_pos h2] at h
        rcases hE : searchKeys val ks with ⟨f, j⟩
        rw [hE] at h
        simp only [Prod.mk.injEq] at h
        obtain ⟨hf, hi⟩ := h
        subst hf
        obtain ⟨hj, htake, hdrop⟩ := ih j hE
        subst hi
        refine ⟨by simp; omega, ?_, ?_⟩
        · intro x hx
          rw [List.take_succ_cons] at hx
          rcases List.mem_cons.mp hx with rfl | hx
          · exact h2
          · exact htake x hx
        · intro hsort x hx
          rw [List.drop_succ_cons] at hx
          exact hdrop (List.sorted_cons.mp hsort).2 x hx
      · rw [if_neg h2] at h
        simp only [Prod.mk.injEq] at h
        obtain ⟨-, hi⟩ := h
        subst hi
        refine ⟨by simp, by simp, ?_⟩
        intro hsort x hx
        have hvk : val < k := by omega
        simp only [List.drop_zero, List.mem_cons] at hx
        rcases hx with rfl | hx
        · exact hvk
        · exact hvk.trans ((List.sorted_cons.mp hsort).1 x hx)

/-! ### Lemmas about `flat` -/

@[simp] theorem Node.flat_leaf (ks : List Int) : (Node.mk ks []).flat = ks := by
  simp [Node.flat]

theorem Node.flat_nil_cons (c : Node) (cs : List Node) :
    (Node.mk [] (c :: cs)).flat = c.flat ++ (Node.mk [] cs).flat := by
  simp only [Node.flat]

theorem Node.flat_cons_cons (k : Int) (ks : List Int) (c : Node) (cs : List Node) :
    (Node.mk (k :: ks) (c :: cs)).flat = c.flat ++ k :: (Node.mk ks cs).flat := by
  simp only [Node.flat]

theorem Node.flat_single (c : Node) : (Node.mk [] [c]).flat = c.flat := by
  rw [Node.flat_nil_cons, Node.flat_leaf, List.append_nil]

/-- The flat sequence of any child is a sublist of the node's flat sequence. -/
theorem Node.flat_sublist_of_getElem :
    ∀ (i : Nat) (ks : List Int) (cs : List Node) (c : Node), cs[i]? = some c →
      c.flat.Sublist (Node.mk ks cs).flat := by
  intro i
  induction i with
  | zero =>
    intro ks cs c h
    match cs, h with
    | c0 :: cs', h =>
      simp only [List.getElem?_cons_zero, Option.some.injEq] at h
      subst h
      match ks with
      | [] => rw [Node.flat_nil_cons]; exact List.sublist_append_left _ _
      | k :: ks' => rw [Node.flat_cons_cons]; exact List.sublist_append_left _ _
  | succ i ih =>
    intro ks cs c h
    match cs, h with
    | c0 :: cs', h =>
      simp only [List.getElem?_cons_succ] at h
      match ks with
      | [] =>
        rw [Node.flat_nil_cons]
        exact (ih [] cs' c h).trans (List.sublist_append_right _ _)
      | k :: ks' =>
        rw [Node.flat_cons_cons]
        exact ((ih ks' cs' c h).trans (List.sublist_cons_self k _)).trans
          (List.sublist_append_right _ _)

/-! ### Lemmas about `chOk` -/

theorem chOk_iff (minK maxK : Nat) (ks : List Int) (cs : List Node) :
    chOk minK maxK (.mk ks cs) = true ↔
      ∀ c ∈ cs, minK ≤ c.keys.length ∧ c.keys.length ≤ maxK
        ∧ (c.children = [] ∨ c.children.length = c.keys.length + 1)
        ∧ chOk minK maxK c = true := by
  induction cs with
  | nil => simp [chOk]
  | cons c cs ih =>
    rw [chOk]
    simp only [Bool.and_eq_true, decide_eq_true_eq, Bool.or_eq_true, List.isEmpty_iff,
      beq_iff_eq, List.mem_cons]
    constructor
    · rintro ⟨⟨⟨⟨h1, h2⟩, h3⟩, h4⟩, h5⟩ x hx
      rcases hx with rfl | hx
      · exact ⟨h1, h2, h3, h4⟩
      · exact ih.mp h5 x hx
    · intro h
      obtain ⟨h1, h2, h3, h4⟩ := h c (Or.inl rfl)
      exact ⟨⟨⟨⟨h1, h2⟩, h3⟩, h4⟩, ih.mpr fun x hx => h x (Or.inr hx)⟩

/-! ### Sorted-list helpers -/

theorem sorted_mid_cases {A B : List Int} {m val : Int}
    (hs : List.Sorted (· < ·) (A ++ m :: B)) (hv : val ∈ A ++ m :: B) :
    (val < m → val ∈ A) ∧ (m < val → val ∈ B) := by
  rw [List.Sorted, List.pairwise_append] at hs
  obtain ⟨hA, hmB, hcross⟩ := hs
  have hmlt : ∀ b ∈ B, m < b := (List.sorted_cons.mp hmB).1
  have haltm : ∀ a ∈ A, a < m := fun a ha => hcross a ha m (List.mem_cons_self m B)
  constructor
  · intro hlt
    rcases List.mem_append.mp hv with h | h
    · exact h
    · rcases List.mem_cons.mp h with rfl | h
      · omega
      · exact absurd (hmlt val h) (by omega)
  · intro hgt
    rcases List.mem_append.mp hv with h | h
    · exact absurd (haltm val h) (by omega)
    · rcases List.mem_cons.mp h with rfl | h
      · omega
      · exact h

/-- If a value lies in a node's flat sequence and the search index `i` bounds
it between the node's keys, then the value lies in the `i`-th child's flat
sequence. -/
theorem flat_mem_child (val : Int) :
    ∀ (i : Nat) (ks : List Int) (cs : List Node),
      cs.length = ks.length + 1 → i ≤ ks.length →
      List.Sorted (· < ·) (Node.mk ks cs).flat →
      val ∈ (Node.mk ks cs).flat →
      (∀ k ∈ ks.take i, k < val) → (∀ k ∈ ks.drop i, val < k) →
      ∃ c, cs[i]? = some c ∧ val ∈ c.flat := by
  intro i
  induction i with
  | zero =>
    intro ks cs hlen hi hs hv htake hdrop
    match cs, hlen with
    | c :: cs', hlen =>
      match ks with
      | [] =>
        have hcs' : cs' = [] := by
          simpa using hlen
        subst hcs'
        rw [Node.flat_single] at hv
        exact ⟨c, by simp, hv⟩
      | k :: ks' =>
        rw [Node.flat_cons_cons] at hs hv
        have hvk : val < k := hdrop k (by simp)
        exact ⟨c, by simp, (sorted_mid_cases hs hv).1 hvk⟩
  | succ i ih =>
    intro ks cs hlen hi hs hv htake hdrop
    match cs, hlen with
    | c :: cs', hlen =>
      match ks, hi with
      | k :: ks', hi =>
        rw [Node.flat_cons_cons] at hs hv
        have hkv : k < val := htake k (by simp [List.take_succ_cons])
        have hvmem : val ∈ (Node.mk ks' cs').flat := (sorted_mid_cases hs hv).2 hkv
        have hs' : List.Sorted (· < ·) (Node.mk ks' cs').flat := by
          rw [List.Sorted, List.pairwise_append] at hs
          exact (List.sorted_cons.mp hs.2.1).2
        have hi' : i ≤ ks'.length := by simp at hi; omega
        obtain ⟨cc, hcc, hm⟩ := ih ks' cs' (by simpa using hlen) hi' hs' hvmem
          (fun x hx => htake x (by rw [List.take_succ_cons]; exact List.mem_cons_of_mem k hx))
          (fun x hx => hdrop x (by rwa [List.drop_succ_cons]))
        exact ⟨cc, by simpa using hcc, hm⟩

/-- Replacing a child by one with the same flat sequence preserves the node's
flat sequence. -/
theorem flat_set_congr :
    ∀ (i : Nat) (ks : List Int) (cs : List Node) (c c2 : Node),
      cs[i]? = some c → c2.flat = c.flat →
      (Node.mk ks (cs.set i c2)).flat = (Node.mk ks cs).flat := by
  intro i
  induction i with
  | zero =>
    intro ks cs c c2 h hf
    match cs, h with
    | c0 :: cs', h =>
      simp only [List.getElem?_cons_zero, Option.some.injEq] at h
      subst h
      rw [List.set_cons_zero]
      match ks with
      | [] => rw [Node.flat_nil_cons, Node.flat_nil_cons, hf]
      | k :: ks' => rw [Node.flat_cons_cons, Node.flat_cons_cons, hf]
  | succ i ih =>
    intro ks cs c c2 h hf
    match cs, h with
    | c0 :: cs', h =>
      simp only [List.getElem?_cons_succ] at h
      rw [List.set_cons_succ]
      match ks with
      | [] => rw [Node.flat_nil_cons, Node.flat_nil_cons, ih [] cs' c c2 h hf]
      | k :: ks' => rw [Node.flat_cons_cons, Node.flat_cons_cons, ih ks' cs' c c2 h hf]

/-- Splitting the `i`-th child into a left part, a middle key, and a right
part preserves the node's flat sequence. -/
theorem flat_split_eq :
    ∀ (i : Nat) (ks : List Int) (cs : List Node) (c L R : Node) (mid : Int),
      cs[i]? = some c → i ≤ ks.length → c.flat = L.flat ++ mid :: R.flat →
      (Node.mk (ks.take i ++ mid :: ks.drop i)
        ((cs.set i L).take (i + 1) ++ R :: (cs.set i L).drop (i + 1))).flat
        = (Node.mk ks cs).flat := by
  intro i
  induction i with
  | zero =>
    intro ks cs c L R mid hc hi hsplit
    match cs, hc with
    | c0 :: cs', hc =>
      simp only [List.getElem?_cons_zero, Option.some.injEq] at hc
      subst hc
      simp only [List.take_zero, List.drop_zero, List.set_cons_zero, List.take_succ_cons,
        List.take_zero, List.drop_succ_cons, List.drop_zero, List.nil_append,
        List.singleton_append]
      match ks with
      | [] =>
        rw [Node.flat_cons_cons, Node.flat_nil_cons, Node.flat_nil_cons, hsplit]
        simp
      | k :: ks' =>
        rw [Node.flat_cons_cons, Node.flat_cons_cons, Node.flat_cons_cons, hsplit]
        simp
  | succ i ih =>
    intro ks cs c L R mid hc hi hsplit
    match cs, hc with
    | c0 :: cs', hc =>
      simp only [List.getElem?_cons_succ] at hc
      match ks, hi with
      | k :: ks', hi =>
        simp only [List.take_succ_cons, List.drop_succ_cons, List.set_cons_succ,
          List.cons_append]
        have hi' : i ≤ ks'.length := by simp at hi; omega
        rw [Node.flat_cons_cons, Node.flat_cons_cons,
          ih ks' cs' c L R mid hc hi' hsplit]

/-- Chopping a node at key `n`: its flat sequence decomposes around that key. -/
theorem flat_chop :
    ∀ (n : Nat) (ks : List Int) (cs : List Node) (k : Int),
      ks[n]? = some k → cs.length = ks.length + 1 →
      (Node.mk ks cs).flat
        = (Node.mk (ks.take n) (cs.take (n + 1))).flat
            ++ k :: (Node.mk (ks.drop (n + 1)) (cs.drop (n + 1))).flat := by
  intro n
  induction n with
  | zero =>
    intro ks cs k hk hlen
    match ks, hk with
    | k0 :: ks', hk =>
      simp only [List.getElem?_cons_zero, Option.some.injEq] at hk
      subst hk
      match cs, hlen with
      | c :: cs', hlen =>
        simp only [List.take_zero, List.take_succ_cons, List.drop_succ_cons, List.drop_zero]
        rw [Node.flat_cons_cons, Node.flat_single]
  | succ n ih =>
    intro ks cs k hk hlen
    match ks, hk with
    | k0 :: ks', hk =>
      simp only [List.getElem?_cons_succ] at hk
      match cs, hlen with
      | c :: cs', hlen =>
        simp only [List.take_succ_cons, List.drop_succ_cons]
        rw [Node.flat_cons_cons, Node.flat_cons_cons,
          ih ks' cs' k hk (by simpa using hlen)]
        simp

/-! ### Index and membership helpers for the split shape -/

theorem getElem_insert_mid (l : List Int) (m : Int) (i : Nat) (h : i ≤ l.length) :
    (l.take i ++ m :: l.drop i)[i]? = some m := by
  rw [List.getElem?_append_right (by simp only [List.length_take]; omega)]
  simp [List.length_take, Nat.min_eq_left h]

theorem length_insert_mid (l : List Int) (m : Int) (i : Nat) (h : i ≤ l.length) :
    (l.take i ++ m :: l.drop i).length = l.length + 1 := by
  simp [List.length_take, List.length_drop]
  omega

theorem child_at_split_left (cs : List Node) (L R : Node) (i : Nat) (h : i + 1 ≤ cs.length) :
    ((cs.set i L).take (i + 1) ++ R :: (cs.set i L).drop (i + 1))[i]? = some L := by
  rw [List.getElem?_append_left (by simp only [List.length_take, List.length_set]; omega)]
  rw [List.getElem?_take_of_lt (by omega)]
  rw [List.getElem?_set_self (by omega)]

theorem child_at_split_right (cs : List Node) (L R : Node) (i : Nat) (h : i + 1 ≤ cs.length) :
    ((cs.set i L).take (i + 1) ++ R :: (cs.set i L).drop (i + 1))[i + 1]? = some R := by
  rw [List.getElem?_append_right (by simp only [List.length_take, List.length_set]; omega)]
  have h0 : i + 1 - ((cs.set i L).take (i + 1)).length = 0 := by
    simp only [List.length_take, List.length_set]
    omega
  rw [h0]
  simp

theorem length_split_children (cs : List Node) (L R : Node) (i : Nat) (h : i + 1 ≤ cs.length) :
    ((cs.set i L).take (i + 1) ++ R :: (cs.set i L).drop (i + 1)).length = cs.length + 1 := by
  simp only [List.length_append, List.length_take, List.length_set, List.length_cons,
    List.length_drop]
  omega

theorem mem_split_children {cs : List Node} {L R x : Node} {i : Nat}
    (hx : x ∈ (cs.set i L).take (i + 1) ++ R :: (cs.set i L).drop (i + 1)) :
    x = L ∨ x = R ∨ x ∈ cs := by
  rcases List.mem_append.mp hx with h | h
  · have hx2 : x ∈ cs.set i L := (List.take_sublist _ _).subset h
    rcases List.mem_or_eq_of_mem_set hx2 with h2 | h2
    · exact Or.inr (Or.inr h2)
    · exact Or.inl h2
  · rcases List.mem_cons.mp h with rfl | h2
    · exact Or.inr (Or.inl rfl)
    · have hx2 : x ∈ cs.set i L := (List.drop_sublist _ _).subset h2
      rcases List.mem_or_eq_of_mem_set hx2 with h3 | h3
      · exact Or.inr (Or.inr h3)
      · exact Or.inl h3

/-- Full characterisation of a successful `split_child` on the `i`-th child:
the parent gains the middle key at position `i` and the two halves `L`, `R`
replace the child; the halves carry half the keys each, keep the child's flat
sequence, and their children are children of the old child. -/
theorem split_child_spec (minK maxK i : Nat) (ks : List Int) (cs : List Node)
    (cks : List Int) (ccs : List Node)
    (hminK : 1 ≤ minK) (hmaxK : maxK = 2 * minK + 1)
    (hc : cs[i]? = some (.mk cks ccs)) (hi : i ≤ ks.length) (hklen : ks.length < maxK)
    (hcs : cs.length = ks.length + 1)
    (hfull : cks.length = maxK)
    (hcwf : ccs = [] ∨ ccs.length = cks.length + 1) :
    ∃ (mid : Int) (L R : Node),
      Node.split_child minK maxK i (.mk ks cs)
        = some (.mk (ks.take i ++ mid :: ks.drop i)
            ((cs.set i L).take (i + 1) ++ R :: (cs.set i L).drop (i + 1)))
      ∧ (Node.mk cks ccs).flat = L.flat ++ mid :: R.flat
      ∧ L.keys.length = minK ∧ R.keys.length = minK
      ∧ (L.children = [] ∨ L.children.length = L.keys.length + 1)
      ∧ (R.children = [] ∨ R.children.length = R.keys.length + 1)
      ∧ (∀ x ∈ L.children, x ∈ ccs) ∧ (∀ x ∈ R.children, x ∈ ccs)
      ∧ L.weight ≤ (Node.mk cks ccs).weight ∧ R.weight ≤ (Node.mk cks ccs).weight := by
  have hcsne : cs.isEmpty = false := by
    rw [List.isEmpty_eq_false_iff_exists_mem]
    exact ⟨_, mem_of_getElem_some hc⟩
  have hmidlt : minK < cks.length := by omega
  have htake1 : cks.take (minK + 1) = cks.take minK ++ [cks[minK]] := by
    rw [List.take_succ, List.getElem?_eq_getElem hmidlt]
    rfl
  have hpop : listPop (cks.take (minK + 1)) = some (cks[minK], cks.take minK) := by
    unfold listPop
    rw [htake1, List.getLast?_concat, List.dropLast_concat]
  have hins1 : listInsert i cks[minK] ks = some (ks.take i ++ cks[minK] :: ks.drop i) := by
    simp [listInsert, hi]
  have hsplitkeys : cks = cks.take minK ++ cks[minK] :: cks.drop (minK + 1) := by
    conv_lhs => rw [← List.take_append_drop minK cks]
    rw [List.drop_eq_getElem_cons hmidlt]
  rcases hcwf with hleaf | hint
  · subst hleaf
    refine ⟨cks[minK], .mk (cks.take minK) [], .mk (cks.drop (minK + 1)) [], ?_, ?_, ?_, ?_,
      Or.inl rfl, Or.inl rfl, by simp, by simp, ?_, ?_⟩
    · have hins2 : listInsert (i + 1) (Node.mk (cks.drop (minK + 1)) [])
          (cs.set i (Node.mk (cks.take minK) [])) =
          some ((cs.set i (Node.mk (cks.take minK) [])).take (i + 1)
            ++ Node.mk (cks.drop (minK + 1)) []
              :: (cs.set i (Node.mk (cks.take minK) [])).drop (i + 1)) := by
        simp only [listInsert, List.length_set]
        rw [if_pos (by omega)]
      unfold Node.split_child
      rw [if_neg (by simp [Node.is_leaf, hcsne, hi, hklen])]
      simp only [Node.children_mk, Node.keys_mk, hc]
      rw [if_neg (by simp [hfull]), if_neg (by omega)]
      simp only [Node.is_leaf, Node.children_mk, List.isEmpty_nil, if_true, hpop, hins1, hins2]
    · rw [Node.flat_leaf, Node.flat_leaf, Node.flat_leaf]
      exact hsplitkeys
    · simp only [Node.keys_mk, List.length_take]
      omega
    · simp only [Node.keys_mk, List.length_drop]
      omega
    · simp only [Node.weight, Node.weight_eq]
      omega
    · simp only [Node.weight, Node.weight_eq]
      omega
  · have hccsne : ccs.isEmpty = false := by
      rw [List.isEmpty_eq_false_iff_exists_mem]
      have : 0 < ccs.length := by omega
      exact ⟨ccs[0], List.getElem_mem this⟩
    refine ⟨cks[minK], .mk (cks.take minK) (ccs.take (minK + 1)),
      .mk (cks.drop (minK + 1)) (ccs.drop (minK + 1)), ?_, ?_, ?_, ?_, ?_, ?_, ?_, ?_, ?_, ?_⟩
    · have hins2 : listInsert (i + 1) (Node.mk (cks.drop (minK + 1)) (ccs.drop (minK + 1)))
          (cs.set i (Node.mk (cks.take minK) (ccs.take (minK + 1)))) =
          some ((cs.set i (Node.mk (cks.take minK) (ccs.take (minK + 1)))).take (i + 1)
            ++ Node.mk (cks.drop (minK + 1)) (ccs.drop (minK + 1))
              :: (cs.set i (Node.mk (cks.take minK) (ccs.take (minK + 1)))).drop (i + 1)) := by
        simp only [listInsert, List.length_set]
        rw [if_pos (by omega)]
      unfold Node.split_child
      rw [if_neg (by simp [Node.is_leaf, hcsne, hi, hklen])]
      simp only [Node.children_mk, Node.keys_mk, hc]
      rw [if_neg (by simp [hfull]), if_neg (by omega)]
      simp only [Node.is_leaf, Node.children_mk, hccsne, Bool.false_eq_true, if_false,
        hpop, hins1, hins2]
    · exact flat_chop minK cks ccs cks[minK] (List.getElem?_eq_getElem hmidlt) (by omega)
    · simp only [Node.keys_mk, List.length_take]
      omega
    · simp only [Node.keys_mk, List.length_drop]
      omega
    · refine Or.inr ?_
      simp only [Node.children_mk, Node.keys_mk, List.length_take]
      omega
    · refine Or.inr ?_
      simp only [Node.children_mk, Node.keys_mk, List.length_drop]
      omega
    · intro x hx
      exact (List.take_sublist _ _).subset hx
    · intro x hx
      exact (List.drop_sublist _ _).subset hx
    · exact Node.weight_take_le _ _ _ _
    · exact Node.weight_drop_le _ _ _ _

/-- The keys of an internal node form a sublist of its flat sequence. -/
theorem keys_sublist_flat :
    ∀ (ks : List Int) (cs : List Node), cs.length = ks.length + 1 →
      ks.Sublist (Node.mk ks cs).flat := by
  intro ks
  induction ks with
  | nil => intro cs h; exact List.nil_sublist _
  | cons k ks' ih =>
    intro cs h
    match cs, h with
    | c :: cs', h =>
      rw [Node.flat_cons_cons]
      have hlen : cs'.length = ks'.length + 1 := by simpa using h
      exact ((ih cs' hlen).cons₂ k).trans (List.sublist_append_right _ _)

/-- The walking loop of `insert`, applied to a structurally sound subtree whose
flat sequence is sorted and already contains `val`, returns `false` with the
flat sequence unchanged (splits along the path may restructure nodes). -/
theorem insertGo_mem (minK maxK size : Nat) (val : Int)
    (hminK : 1 ≤ minK) (hmaxK : maxK = 2 * minK + 1) :
    ∀ (fuel : Nat) (node : Node) (isRoot : Bool),
      node.weight ≤ fuel →
      node.keys.length < maxK →
      (isRoot = true ∨ minK ≤ node.keys.length) →
      (node.children = [] ∨ node.children.length = node.keys.length + 1) →
      chOk minK maxK node = true →
      List.Sorted (· < ·) node.flat →
      val ∈ node.flat →
      ∃ node2, insertGo minK maxK size val fuel node isRoot = some (node2, false)
        ∧ node2.flat = node.flat := by
  intro fuel
  induction fuel with
  | zero =>
    intro node isRoot hw
    have := node.weight_pos
    omega
  | succ fuel ih =>
    intro node isRoot hw hklen hmin hcnt hch hs hv
    obtain ⟨ks, cs⟩ := node
    simp only [Node.keys_mk, Node.children_mk] at hklen hmin hcnt
    simp only [insertGo, Node.keys_mk, Node.children_mk]
    rw [if_neg (not_not_intro hklen), if_neg (not_not_intro hmin)]
    simp only [Node.search, Node.keys_mk]
    rcases hsk : searchKeys val ks with ⟨found, i⟩
    cases found
    · -- key not found at this node's keys
      obtain ⟨hi, htake, hdropS⟩ := searchKeys_false_spec val ks i hsk
      rcases hcnt with hcs0 | hcs1
      · -- leaf: contradiction with membership
        subst hcs0
        rw [Node.flat_leaf] at hs hv
        exfalso
        have hdrop := hdropS hs
        conv at hv => rw [← List.take_append_drop i ks]
        rcases List.mem_append.mp hv with h | h
        · exact absurd (htake val h) (by omega)
        · exact absurd (hdrop val h) (by omega)
      · -- internal node
        have hcsne : cs.isEmpty = false := by
          rw [List.isEmpty_eq_false_iff_exists_mem]
          have h0 : 0 < cs.length := by omega
          exact ⟨cs[0], List.getElem_mem h0⟩
        have hsk2 : List.Sorted (· < ·) ks :=
          List.Pairwise.sublist (keys_sublist_flat ks cs hcs1) hs
        have hdrop := hdropS hsk2
        obtain ⟨c, hc, hvc⟩ := flat_mem_child val i ks cs hcs1 hi hs hv htake hdrop
        have hsc : List.Sorted (· < ·) c.flat :=
          List.Pairwise.sublist (Node.flat_sublist_of_getElem i ks cs c hc) hs
        obtain ⟨hc1, hc2, hc3, hc4⟩ := (chOk_iff minK maxK ks cs).mp hch c (mem_of_getElem_some hc)
        have hwc : c.weight ≤ fuel := by
          have := Node.weight_lt_of_getElem hc ks
          omega
        simp only [Node.is_leaf, Node.children_mk, hcsne, Bool.false_eq_true, if_false, hc]
        by_cases hfull : c.keys.length = maxK
        · -- the child is full: split it first
          rw [if_pos hfull]
          obtain ⟨cks, ccs⟩ := c
          simp only [Node.keys_mk, Node.children_mk] at hfull hc3
          obtain ⟨mid, L, R, heq, hflatsplit, hLk, hRk, hLc, hRc, hLsub, hRsub, hLw, hRw⟩ :=
            split_child_spec minK maxK i ks cs cks ccs hminK hmaxK hc hi hklen hcs1 hfull hc3
          rw [heq]
          simp only [Node.keys_mk, Node.children_mk, getElem_insert_mid ks mid i hi]
          rw [hflatsplit] at hvc hsc
          have hLs : List.Sorted (· < ·) L.flat := ((List.pairwise_append.mp hsc).1 : _)
          have hRs : List.Sorted (· < ·) R.flat :=
            (List.sorted_cons.mp (List.pairwise_append.mp hsc).2.1).2
          have hchL : chOk minK maxK L = true := by
            obtain ⟨Lks, Lcs⟩ := L
            exact (chOk_iff minK maxK Lks Lcs).mpr fun x hx =>
              (chOk_iff minK maxK cks ccs).mp hc4 x (hLsub x hx)
          have hchR : chOk minK maxK R = true := by
            obtain ⟨Rks, Rcs⟩ := R
            exact (chOk_iff minK maxK Rks Rcs).mpr fun x hx =>
              (chOk_iff minK maxK cks ccs).mp hc4 x (hRsub x hx)
          have hwc2 := Node.weight_lt_of_getElem hc ks
          by_cases hvm : val = mid
          · rw [if_pos hvm]
            exact ⟨_, rfl, flat_split_eq i ks cs (Node.mk cks ccs) L R mid hc hi hflatsplit⟩
          · rw [if_neg hvm]
            by_cases hmv : mid < val
            · rw [if_pos hmv]
              have hgetR := child_at_split_right cs L R i (by omega)
              have hvR : val ∈ R.flat := (sorted_mid_cases hsc hvc).2 hmv
              obtain ⟨c2, hrec, hflat2⟩ := ih R false (by omega) (by omega) (by omega)
                hRc hchR hRs hvR
              simp only [hgetR, hrec]
              refine ⟨_, rfl, ?_⟩
              rw [flat_set_congr (i + 1) _ _ R c2 hgetR hflat2]
              exact flat_split_eq i ks cs (Node.mk cks ccs) L R mid hc hi hflatsplit
            · rw [if_neg hmv]
              have hgetL := child_at_split_left cs L R i (by omega)
              have hvL : val ∈ L.flat := (sorted_mid_cases hsc hvc).1 (by omega)
              obtain ⟨c2, hrec, hflat2⟩ := ih L false (by omega) (by omega) (by omega)
                hLc hchL hLs hvL
              simp only [hgetL, hrec]
              refine ⟨_, rfl, ?_⟩
              rw [flat_set_congr i _ _ L c2 hgetL hflat2]
              exact flat_split_eq i ks cs (Node.mk cks ccs) L R mid hc hi hflatsplit
        · -- the child is not full: descend directly
          rw [if_neg hfull]
          obtain ⟨c2, hrec, hflat2⟩ := ih c false hwc (by omega) (by omega) hc3 hc4 hsc hvc
          simp only [hrec]
          exact ⟨_, rfl, flat_set_congr i ks cs c c2 hc hflat2⟩
    · -- found: the key is already present at this node
      exact ⟨_, rfl, rfl⟩

/-- C7 (amended): inserting a value already present in a well-formed tree
returns `false` and leaves `len()` and the in-order key sequence unchanged
(pre-emptive node splits along the search path may still restructure nodes). -/
theorem C7_insert_present_returns_false (t : Btree) (val : Int)
    (hminK : 1 ≤ t.min_keys) (hmaxK : t.max_keys = 2 * t.min_keys + 1)
    (hwf : t.root.wfRoot t.min_keys t.max_keys = true)
    (hs : List.Sorted (· < ·) t.toList)
    (hv : val ∈ t.toList) :
    ∃ t2, t.insert val = some (t2, false) ∧ t2.size = t.size ∧ t2.toList = t.toList := by
  obtain ⟨⟨rks, rcs⟩, sz, mnk, mxk⟩ := t
  simp only [Btree.toList] at hs hv
  simp only [Node.wfRoot, Bool.and_eq_true, decide_eq_true_eq, Bool.or_eq_true,
    List.isEmpty_iff, beq_iff_eq, Node.keys_mk, Node.children_mk] at hwf
  obtain ⟨⟨hroot_le, hroot_cnt⟩, hroot_chOk⟩ := hwf
  simp only at hminK hmaxK hs hv hroot_le hroot_cnt hroot_chOk
  have hroot_cnt2 : rcs = [] ∨ rcs.length = rks.length + 1 := by
    rcases hroot_cnt with h | h
    · exact Or.inl h
    · exact Or.inr (by exact_mod_cast h)
  simp only [Btree.insert, Node.keys_mk]
  by_cases hfull : rks.length = mxk
  · rw [if_pos hfull, if_neg (not_not_intro ⟨by omega, by omega⟩)]
    have hc : ([Node.mk rks rcs] : List Node)[0]? = some (Node.mk rks rcs) := by simp
    obtain ⟨mid, L, R, heq, hflatsplit, hLk, hRk, hLc, hRc, hLsub, hRsub, hLw, hRw⟩ :=
      split_child_spec mnk mxk 0 [] [Node.mk rks rcs] rks rcs hminK hmaxK hc (by simp)
        (by simp; omega) (by simp) hfull hroot_cnt2
    simp only [heq]
    have hflatnode : (Node.mk ([].take 0 ++ mid :: [].drop 0)
        (([Node.mk rks rcs].set 0 L).take (0 + 1)
          ++ R :: ([Node.mk rks rcs].set 0 L).drop (0 + 1))).flat = (Node.mk rks rcs).flat := by
      rw [flat_split_eq 0 [] [Node.mk rks rcs] (Node.mk rks rcs) L R mid hc (by simp) hflatsplit]
      exact Node.flat_single _
    
    have hchL : chOk mnk mxk L = true := by
      obtain ⟨Lks, Lcs⟩ := L
      exact (chOk_iff mnk mxk Lks Lcs).mpr fun x hx =>
        (chOk_iff mnk mxk rks rcs).mp hroot_chOk x (hLsub x hx)
    have hchR : chOk mnk mxk R = true := by
      obtain ⟨Rks, Rcs⟩ := R
      exact (chOk_iff mnk mxk Rks Rcs).mpr fun x hx =>
        (chOk_iff mnk mxk rks rcs).mp hroot_chOk x (hRsub x hx)
    have hchnode : chOk mnk mxk (Node.mk ([].take 0 ++ mid :: [].drop 0)
        (([Node.mk rks rcs].set 0 L).take (0 + 1)
          ++ R :: ([Node.mk rks rcs].set 0 L).drop (0 + 1))) = true := by
      refine (chOk_iff mnk mxk _ _).mpr fun x hx => ?_
      rcases mem_split_children hx with rfl | hx2
      · exact ⟨by omega, by omega, hLc, hchL⟩
      rcases hx2 with rfl | hx3
      · exact ⟨by omega, by omega, hRc, hchR⟩
      · rcases List.mem_singleton.mp hx3 with rfl
        exact ⟨by simp only [Node.keys_mk]; omega, by simp only [Node.keys_mk]; omega,
          hroot_cnt2, hroot_chOk⟩
    obtain ⟨node2, hrec, hflat2⟩ := insertGo_mem mnk mxk sz val hminK hmaxK _ _ true
      (le_refl _) (by simp [length_insert_mid]; omega) (Or.inl rfl)
      (by
        refine Or.inr ?_
        simp)
      hchnode (by rwa [hflatnode]) (by rwa [hflatnode])
    simp only [hrec]
    exact ⟨_, rfl, rfl, by simpa only [Btree.toList, hflat2] using hflatnode⟩
  · rw [if_neg hfull]
    obtain ⟨node2, hrec, hflat2⟩ := insertGo_mem mnk mxk sz val hminK hmaxK
      (Node.mk rks rcs).weight (Node.mk rks rcs) true (le_refl _)
      (by simp; omega) (Or.inl rfl)
      (by
        rcases hroot_cnt2 with h | h
        · exact Or.inl (by simpa using h)
        · exact Or.inr (by simpa using h))
      hroot_chOk hs hv
    simp only [hrec]
    exact ⟨_, rfl, rfl, hflat2⟩

/-- C7 (counterexample): inserting the already-present key 2 into the
degree-2 tree with full root leaf `[1,2,3]` (the result of inserting 1, 2, 3)
returns `false` and keeps `len() = 3`, but the tree state is not unchanged:
the root is split first, so the root goes from 0 children to 2. -/
theorem C7_insert_present_splits_root :
    ((Btree.new 2).bind fun t => insertAll t [1, 2, 3]) = some C7tree
      ∧ (C7tree.insert 2).map
          (fun p => (p.2, p.1.size, p.1.root.keys, p.1.root.children.length))
        = some (false, 3, [2], 2)
      ∧ C7tree.root.children.length = 0 := by
  refine ⟨?_, ?_, rfl⟩
  · simp [Btree.new, Node.newNode, insertAll, Btree.insert, insertGo, Node.split_child,
      Node.search, searchKeys, Node.is_leaf, Node.weight, listInsert, listPop, listRemove,
      listAssign, usizeMax, C7tree]
  · simp [Btree.insert, insertGo, Node.split_child, Node.search, searchKeys, Node.is_leaf,
      Node.weight, listInsert, listPop, usizeMax, C7tree]

/-- C7 witness: the amended statement applied to the concrete tree `C7tree`
and the present key 2. -/
theorem C7_insert_present_returns_false_witness :
    ∃ t2, C7tree.insert 2 = some (t2, false) ∧ t2.size = C7tree.size
      ∧ t2.toList = C7tree.toList :=
  C7_insert_present_returns_false C7tree 2 (by decide) (by decide)
    (by simp [Node.wfRoot, chOk, C7tree])
    (by simp [Btree.toList, C7tree, Node.flat, List.sorted_cons])
    (by simp [Btree.toList, C7tree, Node.flat])
